import Mathlib

/-!
Verification of the block encoder and stream orchestration layer of a
streaming DEFLATE compressor (the `deflate::encode` module).

The core module (`src/deflate/encode.rs`) is embedded shallowly below.
Its collaborators — the bit writer, the LZ77 match finder, the Huffman
codecs and the `Finish` pair — are not part of the core source; they are
modelled from the specification of their contracts and kept abstract
(universally quantified function records) wherever possible.

Two instantiations of the generic writer parameter `W : io::Write` are
developed: a pure one (an infallible byte sink, as with `Vec<u8>`), used
for the content and invariant theorems, and a fallible one (a sink with a
finite write budget), used for the error-handling theorems.
-/

set_option autoImplicit false

namespace Libflate

/-- Modelled from the spec: the compressed-stream alphabet (the `Symbol`
data model of `deflate::symbol`) — literal byte, back-reference
(length, distance), end-of-block marker. -/
inductive Symbol where
  | literal (b : Nat)
  | share (length distance : Nat)
  | endOfBlock
deriving DecidableEq

/-- Modelled from the spec: the `BlockType` enum of `deflate::mod`
(tagged enum with variants Raw, Fixed, Dynamic). -/
inductive BlockType where
  | Raw
  | Fixed
  | Dynamic
deriving DecidableEq

/-- Modelled from the spec: the numeric discriminant used by
`self.block_type as u16` — the 2-bit block-type code, Raw=0 (stored),
Fixed=1, Dynamic=2. -/
def BlockType.code : BlockType → Nat
  | BlockType.Raw => 0
  | BlockType.Fixed => 1
  | BlockType.Dynamic => 2

/-- Modelled from the spec: codes produced by the LZ77 match finder
(`lz77::Code`) — literal byte, or pointer (length, backward distance). -/
inductive Lz77Code where
  | literal (b : Nat)
  | pointer (length backward_distance : Nat)
deriving DecidableEq

/-- The Sink adapter for symbol collection (`impl lz77::Sink for
Vec<Symbol>` in `src/deflate/encode.rs`): a pure 1:1 translation of an
LZ77 code into a `Symbol`, appended in emission order. -/
def consume : Lz77Code → Symbol
  | Lz77Code.literal b => Symbol.literal b
  | Lz77Code.pointer length backward_distance => Symbol.share length backward_distance

/-- Modelled from the spec: the LZ77 encoder contract over an abstract
internal state `σ` — `encode` consumes bytes and emits zero or more
symbols (through the Sink adapter) while updating its look-back state;
`flush` forces retained look-ahead into emitted symbols. -/
structure Lz77Encode (σ : Type) where
  encode : σ → List Nat → σ × List Symbol
  flush : σ → σ × List Symbol

/-- Modelled from the spec: the pure bit writer (`bit::BitWriter`) over an
infallible byte sink — committed bytes, plus a pending sub-byte bit
buffer filled least-significant-bit first. -/
structure BitWriter where
  bytes : List Nat
  bitBuf : Nat
  bitLen : Nat
deriving DecidableEq

/-- Modelled from the spec: a fresh bit writer over a given sink prefix. -/
def BitWriter.new (inner : List Nat) : BitWriter :=
  ⟨inner, 0, 0⟩

/-- Modelled from the spec: append one bit; when eight bits are pending
the completed byte is committed to the sink. -/
def BitWriter.writeBit (w : BitWriter) (b : Bool) : BitWriter :=
  let buf := w.bitBuf + (if b then 2 ^ w.bitLen else 0)
  if w.bitLen + 1 = 8 then ⟨w.bytes ++ [buf], 0, 0⟩
  else ⟨w.bytes, buf, w.bitLen + 1⟩

/-- Modelled from the spec: append the low `width` bits of `value`,
least-significant first. -/
def BitWriter.writeBits (w : BitWriter) (width value : Nat) : BitWriter :=
  match width with
  | 0 => w
  | n + 1 => (w.writeBit (value % 2 = 1)).writeBits n (value / 2)

/-- Modelled from the spec: pad the pending partial byte with zero bits
(the pending bits sit in the low positions, so committing the bit buffer
as a byte zero-pads the remaining high bits) and commit it, leaving the
output byte-aligned. -/
def BitWriter.flush (w : BitWriter) : BitWriter :=
  if w.bitLen = 0 then w else ⟨w.bytes ++ [w.bitBuf], 0, 0⟩

/-- Modelled from the spec: a direct little-endian 16-bit write to the
underlying byte sink (`as_inner_mut().write_u16::<LittleEndian>`),
bypassing the bit buffer. -/
def BitWriter.writeU16LE (w : BitWriter) (v : Nat) : BitWriter :=
  { w with bytes := w.bytes ++ [v % 256, v / 256 % 256] }

/-- Modelled from the spec: a direct byte-slice write to the underlying
byte sink (`as_inner_mut().write_all`). -/
def BitWriter.writeAll (w : BitWriter) (bs : List Nat) : BitWriter :=
  { w with bytes := w.bytes ++ bs }

/-- `DEFAULT_BLOCK_SIZE` from `src/deflate/encode.rs`. -/
def DEFAULT_BLOCK_SIZE : Nat := 1024 * 1024

/-- `MAX_NON_COMPRESSED_BLOCK_SIZE` (0xFFFF) from `src/deflate/encode.rs`. -/
def MAX_NON_COMPRESSED_BLOCK_SIZE : Nat := 0xFFFF

/-- `EncodeOptions` from `src/deflate/encode.rs`: block-size threshold,
Huffman mode flag, and the optional LZ77 match-finder state (absence
means raw/no-compression mode). -/
structure EncodeOptions (σ : Type) where
  block_size : Nat
  dynamic_huffman : Bool
  lz77 : Option σ
deriving DecidableEq

/-- `EncodeOptions::get_block_type` from `src/deflate/encode.rs`. -/
def EncodeOptions.get_block_type {σ : Type} (o : EncodeOptions σ) : BlockType :=
  if o.lz77.isNone then BlockType.Raw
  else if o.dynamic_huffman then BlockType.Dynamic
  else BlockType.Fixed

/-- `EncodeOptions::get_block_size` from `src/deflate/encode.rs`. -/
def EncodeOptions.get_block_size {σ : Type} (o : EncodeOptions σ) : Nat :=
  if o.lz77.isNone then min o.block_size MAX_NON_COMPRESSED_BLOCK_SIZE
  else o.block_size

/-- `RawBuf` from `src/deflate/encode.rs`: the raw byte accumulator. -/
structure RawBuf where
  buf : List Nat
deriving DecidableEq

/-- `RawBuf::new`. -/
def RawBuf.new : RawBuf := ⟨[]⟩

/-- `RawBuf::append`: `self.buf.extend(buf)`. -/
def RawBuf.append (b : RawBuf) (buf : List Nat) : RawBuf :=
  ⟨b.buf ++ buf⟩

/-- `RawBuf::len`. -/
def RawBuf.len (b : RawBuf) : Nat := b.buf.length

/-- `RawBuf::flush` from `src/deflate/encode.rs`: byte-align the writer,
write LEN (the clamped size) and NLEN (`!size as u16`, modelled for a
64-bit `usize` as bitwise complement followed by truncation to 16 bits)
little-endian to the inner sink, write `size` buffered bytes verbatim,
and drain exactly those bytes from the front of the buffer. -/
def RawBuf.flush (b : RawBuf) (w : BitWriter) : RawBuf × BitWriter :=
  let size := min b.buf.length MAX_NON_COMPRESSED_BLOCK_SIZE
  let w := w.flush
  let w := w.writeU16LE size
  let w := w.writeU16LE ((2 ^ 64 - 1 - size) % 2 ^ 16)
  let w := w.writeAll (b.buf.take size)
  (⟨b.buf.drop size⟩, w)

/-- Modelled from the spec: the Huffman codec contract
(`deflate::symbol::HuffmanCodec`) over an abstract encoder-table type
`T` — build a table from a symbol multiset, serialize the decoder's
side-table, and encode one symbol as bits. -/
structure HuffmanCodec (T : Type) where
  build : List Symbol → T
  save : BitWriter → T → BitWriter
  encode : T → BitWriter → Symbol → BitWriter

/-- `CompressBuf` from `src/deflate/encode.rs`: the symbol accumulator,
the original (pre-compression) byte counter, and the LZ77 state (the
codec itself is a zero-sized strategy passed to each operation). -/
structure CompressBuf (σ : Type) where
  buf : List Symbol
  original_size : Nat
  lzState : σ
deriving DecidableEq

/-- `CompressBuf::new`. -/
def CompressBuf.new {σ : Type} (s : σ) : CompressBuf σ :=
  ⟨[], 0, s⟩

/-- `CompressBuf::append`: count the original bytes, then feed them
through the LZ77 encoder into the symbol accumulator. -/
def CompressBuf.append {σ : Type} (L : Lz77Encode σ) (c : CompressBuf σ) (buf : List Nat) :
    CompressBuf σ :=
  let p := L.encode c.lzState buf
  { c with
    original_size := c.original_size + buf.length
    buf := c.buf ++ p.2
    lzState := p.1 }

/-- `CompressBuf::len`: the original, pre-compression byte count. -/
def CompressBuf.len {σ : Type} (c : CompressBuf σ) : Nat := c.original_size

/-- `CompressBuf::flush` from `src/deflate/encode.rs`: flush the LZ77
look-ahead into the accumulator, push one `EndOfBlock`, build the codec
from the accumulated symbols, save its side-table, encode every symbol
in arrival order, and drain the accumulator and the byte counter. -/
def CompressBuf.flush {σ T : Type} (L : Lz77Encode σ) (H : HuffmanCodec T)
    (c : CompressBuf σ) (w : BitWriter) : CompressBuf σ × BitWriter :=
  let p := L.flush c.lzState
  let syms := c.buf ++ p.2 ++ [Symbol.endOfBlock]
  let enc := H.build syms
  let w := H.save w enc
  let w := syms.foldl (H.encode enc) w
  (⟨[], 0, p.1⟩, w)

/-- The strategy context threaded through the generic code: the LZ77
encoder and the two Huffman codecs (fixed and dynamic) that Rust passes
implicitly through trait dispatch. -/
structure Ctx (σ TF TD : Type) where
  L : Lz77Encode σ
  HF : HuffmanCodec TF
  HD : HuffmanCodec TD

/-- `BlockBuf` from `src/deflate/encode.rs`: the tagged union over the
three buffering strategies. -/
inductive BlockBuf (σ : Type) where
  | raw (b : RawBuf)
  | fixed (b : CompressBuf σ)
  | dynamic (b : CompressBuf σ)
deriving DecidableEq

/-- `BlockBuf::new`: variant selected once from the options. -/
def BlockBuf.new {σ : Type} (lz77 : Option σ) (dynamic : Bool) : BlockBuf σ :=
  match lz77 with
  | some s => if dynamic then BlockBuf.dynamic (CompressBuf.new s)
              else BlockBuf.fixed (CompressBuf.new s)
  | none => BlockBuf.raw RawBuf.new

/-- `BlockBuf::append`: dispatch on the variant. -/
def BlockBuf.append {σ TF TD : Type} (C : Ctx σ TF TD) (bb : BlockBuf σ) (buf : List Nat) :
    BlockBuf σ :=
  match bb with
  | BlockBuf.raw b => BlockBuf.raw (b.append buf)
  | BlockBuf.fixed b => BlockBuf.fixed (b.append C.L buf)
  | BlockBuf.dynamic b => BlockBuf.dynamic (b.append C.L buf)

/-- `BlockBuf::len`: dispatch on the variant. -/
def BlockBuf.len {σ : Type} (bb : BlockBuf σ) : Nat :=
  match bb with
  | BlockBuf.raw b => b.len
  | BlockBuf.fixed b => b.len
  | BlockBuf.dynamic b => b.len

/-- `BlockBuf::flush`: dispatch on the variant. -/
def BlockBuf.flush {σ TF TD : Type} (C : Ctx σ TF TD) (bb : BlockBuf σ) (w : BitWriter) :
    BlockBuf σ × BitWriter :=
  match bb with
  | BlockBuf.raw b =>
    let p := b.flush w
    (BlockBuf.raw p.1, p.2)
  | BlockBuf.fixed b =>
    let p := b.flush C.L C.HF w
    (BlockBuf.fixed p.1, p.2)
  | BlockBuf.dynamic b =>
    let p := b.flush C.L C.HD w
    (BlockBuf.dynamic p.1, p.2)

/-- The constructor tag of a `BlockBuf`, for stating that operations
preserve the buffering strategy. -/
def BlockBuf.tag {σ : Type} : BlockBuf σ → BlockType
  | BlockBuf.raw _ => BlockType.Raw
  | BlockBuf.fixed _ => BlockType.Fixed
  | BlockBuf.dynamic _ => BlockType.Dynamic

/-- `Block` from `src/deflate/encode.rs`: the segmentation state —
resolved block type, resolved block-size threshold, and the buffer. -/
structure Block (σ : Type) where
  block_type : BlockType
  block_size : Nat
  block_buf : BlockBuf σ
deriving DecidableEq

/-- `Block::new`: resolve the options. -/
def Block.new {σ : Type} (options : EncodeOptions σ) : Block σ :=
  ⟨options.get_block_type, options.get_block_size,
   BlockBuf.new options.lz77 options.dynamic_huffman⟩

/-- The body of the flush loop in `Block::write`: emit a non-final block
header (1 header bit = 0, then the 2-bit type code) and flush the
buffer once. -/
def Block.flushStep {σ TF TD : Type} (C : Ctx σ TF TD) (blk : Block σ) (w : BitWriter) :
    Block σ × BitWriter :=
  let w := w.writeBit false
  let w := w.writeBits 2 blk.block_type.code
  let p := blk.block_buf.flush C w
  ({ blk with block_buf := p.1 }, p.2)

/-- The `while self.block_buf.len() >= self.block_size` loop of
`Block::write`, made total with an explicit iteration bound. The bound
is exhausted only if the loop condition still holds after that many
iterations — i.e. only on inputs where the source loop diverges; the
termination theorem shows the bound supplied by `Block.write` suffices
whenever the block size is at least 1. -/
def Block.flushLoop {σ TF TD : Type} (C : Ctx σ TF TD) :
    Nat → Block σ × BitWriter → Block σ × BitWriter
  | 0, st => st
  | fuel + 1, st =>
    if st.1.block_size ≤ st.1.block_buf.len then
      Block.flushLoop C fuel (Block.flushStep C st.1 st.2)
    else st

/-- `Block::write` from `src/deflate/encode.rs`: append, then flush
whole blocks while the threshold is met. -/
def Block.write {σ TF TD : Type} (C : Ctx σ TF TD) (blk : Block σ) (w : BitWriter)
    (buf : List Nat) : Block σ × BitWriter :=
  let blk := { blk with block_buf := blk.block_buf.append C buf }
  Block.flushLoop C (blk.block_buf.len + 1) (blk, w)

/-- `Block::finish` from `src/deflate/encode.rs`: emit a final block
header (1 header bit = 1, then the 2-bit type code), flush the buffer
exactly once, then byte-align the writer. -/
def Block.finish {σ TF TD : Type} (C : Ctx σ TF TD) (blk : Block σ) (w : BitWriter) :
    BitWriter :=
  let w := w.writeBit true
  let w := w.writeBits 2 blk.block_type.code
  let p := blk.block_buf.flush C w
  p.2.flush

/-- `Encoder` from `src/deflate/encode.rs`, instantiated at an
infallible byte sink: the bit writer plus the block state. -/
structure Encoder (σ : Type) where
  writer : BitWriter
  block : Block σ
deriving DecidableEq

/-- `Encoder::with_options`. -/
def Encoder.with_options {σ : Type} (inner : List Nat) (options : EncodeOptions σ) :
    Encoder σ :=
  ⟨BitWriter.new inner, Block.new options⟩

/-- `Encoder::write` (the `io::Write` impl) at the infallible sink:
delegate to `Block::write` and report the whole input length. -/
def Encoder.write {σ TF TD : Type} (C : Ctx σ TF TD) (enc : Encoder σ) (buf : List Nat) :
    Encoder σ × Nat :=
  let p := Block.write C enc.block enc.writer buf
  (⟨p.2, p.1⟩, buf.length)

/-- A run of successive `Encoder::write` calls. -/
def Encoder.runWrites {σ TF TD : Type} (C : Ctx σ TF TD) (enc : Encoder σ) :
    List (List Nat) → Encoder σ
  | [] => enc
  | buf :: bufs => Encoder.runWrites C (Encoder.write C enc buf).1 bufs

/-- `Encoder::finish` at the infallible sink: delegate to
`Block::finish` and yield the committed byte stream (`into_inner`). -/
def Encoder.finish {σ TF TD : Type} (C : Ctx σ TF TD) (enc : Encoder σ) : List Nat :=
  (Block.finish C enc.block enc.writer).bytes

/-!
The fallible instantiation: the generic sink `W : io::Write` is a byte
sink with a finite write budget, whose writes fail with an I/O error
once the budget is exhausted. Mutable-reference semantics are modelled
by always returning the updated state alongside an optional error, with
`try!`-style short-circuiting.
-/

/-- A fallible byte sink: committed bytes plus a remaining write
budget; a write fails (and commits nothing) when the budget is zero. -/
structure FSink where
  out : List Nat
  budget : Nat
deriving DecidableEq

/-- Write one byte to the fallible sink. -/
def FSink.writeByte (s : FSink) (b : Nat) : FSink × Option Unit :=
  if s.budget = 0 then (s, some ()) else (⟨s.out ++ [b], s.budget - 1⟩, none)

/-- Write a byte list to the fallible sink, stopping at the first
failure (`write_all`). -/
def FSink.writeList (s : FSink) : List Nat → FSink × Option Unit
  | [] => (s, none)
  | b :: bs =>
    match s.writeByte b with
    | (s, none) => s.writeList bs
    | (s, some e) => (s, some e)

/-- Write a little-endian 16-bit value to the fallible sink
(`write_u16::<LittleEndian>`). -/
def FSink.writeU16LE (s : FSink) (v : Nat) : FSink × Option Unit :=
  s.writeList [v % 256, v / 256 % 256]

/-- Modelled from the spec: the bit writer over the fallible sink. -/
structure FBitWriter where
  inner : FSink
  bitBuf : Nat
  bitLen : Nat
deriving DecidableEq

/-- Modelled from the spec: append one bit to the fallible bit writer;
committing a completed byte may fail. -/
def FBitWriter.writeBit (w : FBitWriter) (b : Bool) : FBitWriter × Option Unit :=
  let buf := w.bitBuf + (if b then 2 ^ w.bitLen else 0)
  if w.bitLen + 1 = 8 then
    match w.inner.writeByte buf with
    | (s, none) => (⟨s, 0, 0⟩, none)
    | (s, some e) => (⟨s, w.bitBuf, w.bitLen⟩, some e)
  else (⟨w.inner, buf, w.bitLen + 1⟩, none)

/-- Modelled from the spec: append the low `width` bits of `value` to
the fallible bit writer, least-significant first, stopping at the first
failure. -/
def FBitWriter.writeBits (w : FBitWriter) (width value : Nat) : FBitWriter × Option Unit :=
  match width with
  | 0 => (w, none)
  | n + 1 =>
    match w.writeBit (value % 2 = 1) with
    | (w, none) => w.writeBits n (value / 2)
    | (w, some e) => (w, some e)

/-- Modelled from the spec: byte-align the fallible bit writer by
committing the zero-padded pending byte. -/
def FBitWriter.flushBits (w : FBitWriter) : FBitWriter × Option Unit :=
  if w.bitLen = 0 then (w, none)
  else
    match w.inner.writeByte w.bitBuf with
    | (s, none) => (⟨s, 0, 0⟩, none)
    | (s, some e) => (⟨s, w.bitBuf, w.bitLen⟩, some e)

/-- A direct write to the underlying sink of a fallible bit writer
(`as_inner_mut()`), leaving the bit buffer untouched. -/
def FBitWriter.innerWrite (w : FBitWriter) (f : FSink → FSink × Option Unit) :
    FBitWriter × Option Unit :=
  match f w.inner with
  | (s, e) => (⟨s, w.bitBuf, w.bitLen⟩, e)

/-- `try!`-style sequencing over the fallible bit writer: run the
continuation only if no error has occurred, keeping the partially
updated state either way. -/
def tryB (r : FBitWriter × Option Unit) (k : FBitWriter → FBitWriter × Option Unit) :
    FBitWriter × Option Unit :=
  match r with
  | (w, none) => k w
  | (w, some e) => (w, some e)

/-- `RawBuf::flush` at the fallible sink: the same write sequence as the
pure model, with `try!` early return; the drain happens only after all
writes succeeded. -/
def RawBuf.flushF (b : RawBuf) (w : FBitWriter) : RawBuf × FBitWriter × Option Unit :=
  let size := min b.buf.length MAX_NON_COMPRESSED_BLOCK_SIZE
  match tryB (tryB (tryB w.flushBits
      (fun w => w.innerWrite (fun s => s.writeU16LE size)))
      (fun w => w.innerWrite (fun s => s.writeU16LE ((2 ^ 64 - 1 - size) % 2 ^ 16))))
      (fun w => w.innerWrite (fun s => s.writeList (b.buf.take size))) with
  | (w, none) => (⟨b.buf.drop size⟩, w, none)
  | (w, some e) => (b, w, some e)

/-- Modelled from the spec: the Huffman codec contract over the
fallible bit writer. -/
structure FHuffmanCodec (T : Type) where
  build : List Symbol → T
  save : FBitWriter → T → FBitWriter × Option Unit
  encode : T → FBitWriter → Symbol → FBitWriter × Option Unit

/-- Encode a symbol list through a fallible codec, stopping at the
first failure (the `for s in self.buf.drain(..)` loop). -/
def FHuffmanCodec.encodeList {T : Type} (H : FHuffmanCodec T) (enc : T) (w : FBitWriter) :
    List Symbol → FBitWriter × Option Unit
  | [] => (w, none)
  | s :: rest =>
    match H.encode enc w s with
    | (w, none) => H.encodeList enc w rest
    | (w, some e) => (w, some e)

/-- `CompressBuf::flush` at the fallible sink. On an error the symbol
accumulator is still emptied (`Vec::drain` removes all elements when
dropped early) but the original-byte counter assignment is skipped. -/
def CompressBuf.flushF {σ T : Type} (L : Lz77Encode σ) (H : FHuffmanCodec T)
    (c : CompressBuf σ) (w : FBitWriter) : CompressBuf σ × FBitWriter × Option Unit :=
  let p := L.flush c.lzState
  let syms := c.buf ++ p.2 ++ [Symbol.endOfBlock]
  let enc := H.build syms
  match tryB (H.save w enc) (fun w => H.encodeList enc w syms) with
  | (w, none) => (⟨[], 0, p.1⟩, w, none)
  | (w, some e) => (⟨[], c.original_size, p.1⟩, w, some e)

/-- The strategy context at the fallible sink. -/
structure CtxF (σ TF TD : Type) where
  L : Lz77Encode σ
  HF : FHuffmanCodec TF
  HD : FHuffmanCodec TD

/-- `BlockBuf::flush` at the fallible sink. -/
def BlockBuf.flushF {σ TF TD : Type} (C : CtxF σ TF TD) (bb : BlockBuf σ) (w : FBitWriter) :
    BlockBuf σ × FBitWriter × Option Unit :=
  match bb with
  | BlockBuf.raw b =>
    match b.flushF w with
    | (b, w, e) => (BlockBuf.raw b, w, e)
  | BlockBuf.fixed b =>
    match b.flushF C.L C.HF w with
    | (b, w, e) => (BlockBuf.fixed b, w, e)
  | BlockBuf.dynamic b =>
    match b.flushF C.L C.HD w with
    | (b, w, e) => (BlockBuf.dynamic b, w, e)

/-- `BlockBuf::append` at the fallible sink (infallible in-memory
growth, identical to the pure model). -/
def BlockBuf.appendF {σ TF TD : Type} (C : CtxF σ TF TD) (bb : BlockBuf σ) (buf : List Nat) :
    BlockBuf σ :=
  match bb with
  | BlockBuf.raw b => BlockBuf.raw (b.append buf)
  | BlockBuf.fixed b => BlockBuf.fixed (b.append C.L buf)
  | BlockBuf.dynamic b => BlockBuf.dynamic (b.append C.L buf)

/-- The flush loop of `Block::write` at the fallible sink, with `try!`
early return. -/
def Block.flushLoopF {σ TF TD : Type} (C : CtxF σ TF TD) :
    Nat → Block σ → FBitWriter → Block σ × FBitWriter × Option Unit
  | 0, blk, w => (blk, w, none)
  | fuel + 1, blk, w =>
    if blk.block_size ≤ blk.block_buf.len then
      match w.writeBit false with
      | (w, some e) => (blk, w, some e)
      | (w, none) =>
        match w.writeBits 2 blk.block_type.code with
        | (w, some e) => (blk, w, some e)
        | (w, none) =>
          match blk.block_buf.flushF C w with
          | (bb, w, none) => Block.flushLoopF C fuel { blk with block_buf := bb } w
          | (bb, w, some e) => ({ blk with block_buf := bb }, w, some e)
    else (blk, w, none)

/-- `Block::write` at the fallible sink. -/
def Block.writeF {σ TF TD : Type} (C : CtxF σ TF TD) (blk : Block σ) (w : FBitWriter)
    (buf : List Nat) : Block σ × FBitWriter × Option Unit :=
  let blk := { blk with block_buf := blk.block_buf.appendF C buf }
  Block.flushLoopF C (blk.block_buf.len + 1) blk w

/-- `Block::finish` at the fallible sink, with `try!` early return; the
block (and its buffer) is consumed by value. -/
def Block.finishF {σ TF TD : Type} (C : CtxF σ TF TD) (blk : Block σ) (w : FBitWriter) :
    FBitWriter × Option Unit :=
  tryB (tryB (tryB (w.writeBit true)
    (fun w => w.writeBits 2 blk.block_type.code))
    (fun w => match blk.block_buf.flushF C w with | (_, w, e) => (w, e)))
    (fun w => w.flushBits)

/-- Modelled from the spec: the `Finish` pair (`finish::Finish`) — the
reclaimed sink together with the optional error of the finishing
flush. -/
structure FinishW where
  obj : FSink
  err : Option Unit
deriving DecidableEq

/-- `Encoder` at the fallible sink. -/
structure EncoderF (σ : Type) where
  writer : FBitWriter
  block : Block σ
deriving DecidableEq

/-- `Encoder::with_options` at the fallible sink. -/
def EncoderF.with_options {σ : Type} (inner : FSink) (options : EncodeOptions σ) :
    EncoderF σ :=
  ⟨⟨inner, 0, 0⟩, Block.new options⟩

/-- `Encoder::write` at the fallible sink: delegate to `Block::write`;
on success report the whole input length, otherwise propagate the
error. -/
def EncoderF.write {σ TF TD : Type} (C : CtxF σ TF TD) (enc : EncoderF σ) (buf : List Nat) :
    EncoderF σ × Except Unit Nat :=
  match Block.writeF C enc.block enc.writer buf with
  | (blk, w, none) => (⟨w, blk⟩, Except.ok buf.length)
  | (blk, w, some e) => (⟨w, blk⟩, Except.error e)

/-- `Encoder::finish` at the fallible sink: delegate to
`Block::finish`; in both outcome branches return ownership of the
underlying sink (`into_inner`) alongside the error status. -/
def EncoderF.finish {σ TF TD : Type} (C : CtxF σ TF TD) (enc : EncoderF σ) : FinishW :=
  match Block.finishF C enc.block enc.writer with
  | (w, none) => ⟨w.inner, none⟩
  | (w, some e) => ⟨w.inner, some e⟩

/-!
Concrete strategy instances used by the witness theorems: a pass-through
LZ77 encoder (every byte becomes a literal, no retained look-ahead) and
trivial codecs.
-/

/-- A pass-through LZ77 encoder with trivial state: every input byte is
emitted as a literal symbol and no look-ahead is retained. -/
def idLz77 : Lz77Encode Unit :=
  ⟨fun s buf => (s, buf.map Symbol.literal), fun s => (s, [])⟩

/-- A trivial pure Huffman codec: empty side-table, one marker byte per
symbol. -/
def unitCodec : HuffmanCodec Unit :=
  ⟨fun _ => (), fun w _ => w, fun _ w _ => w.writeBits 1 1⟩

/-- The concrete pure strategy context for witnesses. -/
def Ctx0 : Ctx Unit Unit Unit := ⟨idLz77, unitCodec, unitCodec⟩

/-- A trivial fallible Huffman codec: empty side-table, one bit per
symbol. -/
def unitCodecF : FHuffmanCodec Unit :=
  ⟨fun _ => (), fun w _ => (w, none), fun _ w _ => w.writeBits 1 1⟩

/-- The concrete fallible strategy context for witnesses. -/
def CtxF0 : CtxF Unit Unit Unit := ⟨idLz77, unitCodecF, unitCodecF⟩

/-- The observable steps `Block` performs on its state during writes,
mirroring the stream grammar of the spec: either an in-memory append
(no output at all), or the emission of exactly one non-final block — a
header bit fixed to 0, the 2-bit block-type code, then one buffer
flush — taken only when the buffered length has reached the block
size. No step available during writes can emit a final (1) header bit,
so a run of writes reachable through this relation contains only
non-final blocks. -/
inductive EncStep {σ TF TD : Type} (C : Ctx σ TF TD) :
    Block σ × BitWriter → Block σ × BitWriter → Prop where
  | append (blk : Block σ) (w : BitWriter) (buf : List Nat) :
      EncStep C (blk, w) ({ blk with block_buf := blk.block_buf.append C buf }, w)
  | emit (blk : Block σ) (w : BitWriter) (h : blk.block_size ≤ blk.block_buf.len) :
      EncStep C (blk, w) (Block.flushStep C blk w)

/-!
Helper lemmas shared by the claim theorems.
-/

/-- Appending to any block buffer grows its length by exactly the
original byte count of the appended slice. -/
theorem BlockBuf.append_len {σ TF TD : Type} (C : Ctx σ TF TD) (bb : BlockBuf σ)
    (buf : List Nat) : (bb.append C buf).len = bb.len + buf.length := by
  cases bb <;>
    simp [BlockBuf.append, BlockBuf.len, RawBuf.append, RawBuf.len,
      CompressBuf.append, CompressBuf.len]

/-- The Sink adapter never produces the EndOfBlock sentinel: symbols
reaching the accumulator through the LZ77 encoder are literals or
back-references only. This justifies the EndOfBlock-freeness
hypotheses of the compressed-flush theorem. -/
theorem consume_ne_endOfBlock (code : Lz77Code) : consume code ≠ Symbol.endOfBlock := by
  cases code <;> simp [consume]

/-- Byte-aligning the bit writer always leaves no pending bits. -/
theorem BitWriter.flush_bitLen (w : BitWriter) : w.flush.bitLen = 0 := by
  unfold BitWriter.flush
  split
  · assumption
  · rfl

/-- A freshly constructed block buffer is empty. -/
theorem BlockBuf.new_len {σ : Type} (lz : Option σ) (dyn : Bool) :
    (BlockBuf.new lz dyn).len = 0 := by
  cases lz <;> cases dyn <;>
    simp [BlockBuf.new, BlockBuf.len, RawBuf.new, RawBuf.len, CompressBuf.new,
      CompressBuf.len]

/-- Appending preserves the buffering strategy. -/
theorem BlockBuf.append_tag {σ TF TD : Type} (C : Ctx σ TF TD) (bb : BlockBuf σ)
    (buf : List Nat) : (bb.append C buf).tag = bb.tag := by
  cases bb <;> rfl

/-- Flushing preserves the buffering strategy. -/
theorem BlockBuf.flush_tag {σ TF TD : Type} (C : Ctx σ TF TD) (bb : BlockBuf σ)
    (w : BitWriter) : (bb.flush C w).1.tag = bb.tag := by
  cases bb <;> rfl

/-- Flushing a nonempty block buffer strictly decreases its length: a raw
flush removes min(length, 65535) ≥ 1 bytes and a compressed flush drains
the length to zero. -/
theorem BlockBuf.flush_len_lt {σ TF TD : Type} (C : Ctx σ TF TD) (bb : BlockBuf σ)
    (w : BitWriter) (h : 1 ≤ bb.len) : (bb.flush C w).1.len < bb.len := by
  cases bb with
  | raw b =>
    simp only [BlockBuf.flush, BlockBuf.len, RawBuf.flush, RawBuf.len,
      MAX_NON_COMPRESSED_BLOCK_SIZE, List.length_drop] at h ⊢
    omega
  | fixed b =>
    simpa [BlockBuf.flush, BlockBuf.len, CompressBuf.flush, CompressBuf.len] using h
  | dynamic b =>
    simpa [BlockBuf.flush, BlockBuf.len, CompressBuf.flush, CompressBuf.len] using h

/-- A single flush fully drains a block buffer, provided a raw buffer
holds at most 65535 original bytes (compressed buffers always drain). -/
theorem BlockBuf.flush_drains {σ TF TD : Type} (C : Ctx σ TF TD) (bb : BlockBuf σ)
    (w : BitWriter) (h : bb.tag = BlockType.Raw → bb.len ≤ 65535) :
    (bb.flush C w).1.len = 0 := by
  cases bb with
  | raw b =>
    have hb := h rfl
    simp only [BlockBuf.len, RawBuf.len] at hb
    simp only [BlockBuf.flush, BlockBuf.len, RawBuf.flush, RawBuf.len,
      MAX_NON_COMPRESSED_BLOCK_SIZE, List.length_drop]
    omega
  | fixed b =>
    simp [BlockBuf.flush, BlockBuf.len, CompressBuf.flush, CompressBuf.len]
  | dynamic b =>
    simp [BlockBuf.flush, BlockBuf.len, CompressBuf.flush, CompressBuf.len]

/-- A compressed (fixed or dynamic) flush always drains the length to
zero. -/
theorem BlockBuf.flush_compressed {σ TF TD : Type} (C : Ctx σ TF TD) (bb : BlockBuf σ)
    (w : BitWriter) (h : bb.tag ≠ BlockType.Raw) : (bb.flush C w).1.len = 0 :=
  BlockBuf.flush_drains C bb w (fun htag => absurd htag h)

/-- The buffering strategy of a fresh block buffer is raw exactly when
no match finder was configured. -/
theorem BlockBuf.new_tag_raw {σ : Type} (lz : Option σ) (dyn : Bool) :
    (BlockBuf.new lz dyn).tag = BlockType.Raw ↔ lz = none := by
  cases lz <;> cases dyn <;> simp [BlockBuf.new, BlockBuf.tag]

/-- One loop iteration keeps the block size. -/
theorem Block.flushStep_block_size {σ TF TD : Type} (C : Ctx σ TF TD) (blk : Block σ)
    (w : BitWriter) : (Block.flushStep C blk w).1.block_size = blk.block_size := rfl

/-- One loop iteration keeps the block type. -/
theorem Block.flushStep_block_type {σ TF TD : Type} (C : Ctx σ TF TD) (blk : Block σ)
    (w : BitWriter) : (Block.flushStep C blk w).1.block_type = blk.block_type := rfl

/-- One loop iteration keeps the buffering strategy. -/
theorem Block.flushStep_tag {σ TF TD : Type} (C : Ctx σ TF TD) (blk : Block σ)
    (w : BitWriter) : (Block.flushStep C blk w).1.block_buf.tag = blk.block_buf.tag :=
  BlockBuf.flush_tag C blk.block_buf _

/-- One loop iteration on a nonempty buffer strictly decreases the
buffered length. -/
theorem Block.flushStep_len_lt {σ TF TD : Type} (C : Ctx σ TF TD) (blk : Block σ)
    (w : BitWriter) (h : 1 ≤ blk.block_buf.len) :
    (Block.flushStep C blk w).1.block_buf.len < blk.block_buf.len :=
  BlockBuf.flush_len_lt C blk.block_buf _ h

/-- The flush loop keeps the block size, the block type and the
buffering strategy. -/
theorem Block.flushLoop_preserves {σ TF TD : Type} (C : Ctx σ TF TD) :
    ∀ (fuel : Nat) (st : Block σ × BitWriter),
      (Block.flushLoop C fuel st).1.block_size = st.1.block_size
      ∧ (Block.flushLoop C fuel st).1.block_type = st.1.block_type
      ∧ (Block.flushLoop C fuel st).1.block_buf.tag = st.1.block_buf.tag := by
  intro fuel
  induction fuel with
  | zero => intro st; exact ⟨rfl, rfl, rfl⟩
  | succ n ih =>
    intro st
    rw [Block.flushLoop]
    split
    · have h := ih (Block.flushStep C st.1 st.2)
      exact ⟨h.1.trans (Block.flushStep_block_size C st.1 st.2),
        h.2.1.trans (Block.flushStep_block_type C st.1 st.2),
        h.2.2.trans (Block.flushStep_tag C st.1 st.2)⟩
    · exact ⟨rfl, rfl, rfl⟩

/-- With block size at least 1, a fuel allowance of one more than the
buffered length makes the flush loop reach its exit condition, and any
additional fuel is unused (the loop terminates). -/
theorem Block.flushLoop_spec {σ TF TD : Type} (C : Ctx σ TF TD) :
    ∀ (fuel : Nat) (blk : Block σ) (w : BitWriter), 1 ≤ blk.block_size →
      blk.block_buf.len + 1 ≤ fuel →
      (Block.flushLoop C fuel (blk, w)).1.block_buf.len < blk.block_size
      ∧ ∀ k, Block.flushLoop C (fuel + k) (blk, w) = Block.flushLoop C fuel (blk, w) := by
  intro fuel
  induction fuel with
  | zero => intro blk w hbs hf; omega
  | succ n ih =>
    intro blk w hbs hf
    by_cases hc : blk.block_size ≤ blk.block_buf.len
    · have hlt := Block.flushStep_len_lt C blk w (le_trans hbs hc)
      have hbs2 : 1 ≤ (Block.flushStep C blk w).1.block_size := by
        rw [Block.flushStep_block_size]; exact hbs
      have hf2 : (Block.flushStep C blk w).1.block_buf.len + 1 ≤ n := by omega
      have hih := ih (Block.flushStep C blk w).1 (Block.flushStep C blk w).2 hbs2 hf2
      constructor
      · rw [Block.flushLoop, if_pos hc]
        calc (Block.flushLoop C n (Block.flushStep C blk w)).1.block_buf.len
            < (Block.flushStep C blk w).1.block_size := by
              have := hih.1
              simpa using this
          _ = blk.block_size := Block.flushStep_block_size C blk w
      · intro k
        have hk : n + 1 + k = (n + k) + 1 := by omega
        rw [hk, Block.flushLoop, if_pos hc, Block.flushLoop, if_pos hc]
        have := hih.2 k
        simpa using this
    · constructor
      · rw [Block.flushLoop, if_neg hc]
        exact Nat.lt_of_not_le hc
      · intro k
        have hk : n + 1 + k = (n + k) + 1 := by omega
        rw [hk, Block.flushLoop, if_neg hc, Block.flushLoop, if_neg hc]

/-- `Block::write` leaves the buffered length strictly below the block
size (when the latter is at least 1) and keeps the block size, block
type and buffering strategy. -/
theorem Block.write_spec {σ TF TD : Type} (C : Ctx σ TF TD) (blk : Block σ)
    (w : BitWriter) (buf : List Nat) (hbs : 1 ≤ blk.block_size) :
    (Block.write C blk w buf).1.block_buf.len < blk.block_size
    ∧ (Block.write C blk w buf).1.block_size = blk.block_size
    ∧ (Block.write C blk w buf).1.block_type = blk.block_type
    ∧ (Block.write C blk w buf).1.block_buf.tag = blk.block_buf.tag := by
  have hspec := Block.flushLoop_spec C ((blk.block_buf.append C buf).len + 1)
    { blk with block_buf := blk.block_buf.append C buf } w hbs (le_refl _)
  have hpre := Block.flushLoop_preserves C ((blk.block_buf.append C buf).len + 1)
    ({ blk with block_buf := blk.block_buf.append C buf }, w)
  refine ⟨hspec.1, hpre.1, hpre.2.1, ?_⟩
  exact hpre.2.2.trans (BlockBuf.append_tag C blk.block_buf buf)

/-- One loop iteration on a compressed buffer drains the length to
zero. -/
theorem Block.flushStep_len_zero {σ TF TD : Type} (C : Ctx σ TF TD) (blk : Block σ)
    (w : BitWriter) (h : blk.block_buf.tag ≠ BlockType.Raw) :
    (Block.flushStep C blk w).1.block_buf.len = 0 :=
  BlockBuf.flush_compressed C blk.block_buf _ h

/-- When the appended data stays below the threshold, `Block::write`
performs no loop iteration: the writer is untouched. -/
theorem Block.write_no_step {σ TF TD : Type} (C : Ctx σ TF TD) (blk : Block σ)
    (w : BitWriter) (buf : List Nat)
    (h : (blk.block_buf.append C buf).len < blk.block_size) :
    Block.write C blk w buf =
      ({ blk with block_buf := blk.block_buf.append C buf }, w) := by
  have hnc : ¬(blk.block_size ≤ (blk.block_buf.append C buf).len) := Nat.not_le.mpr h
  show Block.flushLoop C ((blk.block_buf.append C buf).len + 1)
      ({ blk with block_buf := blk.block_buf.append C buf }, w) =
    ({ blk with block_buf := blk.block_buf.append C buf }, w)
  rw [Block.flushLoop, if_neg hnc]

/-- When the appended data hits the threshold exactly and one flush
drains the buffer, `Block::write` performs exactly one loop
iteration. -/
theorem Block.write_one_step {σ TF TD : Type} (C : Ctx σ TF TD) (blk : Block σ)
    (w : BitWriter) (buf : List Nat) (hbs : 1 ≤ blk.block_size)
    (heq : (blk.block_buf.append C buf).len = blk.block_size)
    (hz : (Block.flushStep C { blk with block_buf := blk.block_buf.append C buf }
        w).1.block_buf.len = 0) :
    Block.write C blk w buf =
      Block.flushStep C { blk with block_buf := blk.block_buf.append C buf } w := by
  obtain ⟨m, hm⟩ : ∃ m, (blk.block_buf.append C buf).len = m + 1 :=
    ⟨(blk.block_buf.append C buf).len - 1, by omega⟩
  have hc : blk.block_size ≤ (blk.block_buf.append C buf).len := le_of_eq heq.symm
  have hneg : ¬((Block.flushStep C { blk with block_buf := blk.block_buf.append C buf }
      w).1.block_size ≤
      (Block.flushStep C { blk with block_buf := blk.block_buf.append C buf }
      w).1.block_buf.len) := by
    rw [hz, Block.flushStep_block_size]
    show ¬(blk.block_size ≤ 0)
    omega
  show Block.flushLoop C ((blk.block_buf.append C buf).len + 1)
      ({ blk with block_buf := blk.block_buf.append C buf }, w) =
    Block.flushStep C { blk with block_buf := blk.block_buf.append C buf } w
  rw [hm, Block.flushLoop, if_pos hc, Block.flushLoop, if_neg hneg]

/-- The resolved block size is at least 1 whenever the configured block
size is. -/
theorem EncodeOptions.get_block_size_pos {σ : Type} (o : EncodeOptions σ)
    (h : 1 ≤ o.block_size) : 1 ≤ o.get_block_size := by
  unfold EncodeOptions.get_block_size MAX_NON_COMPRESSED_BLOCK_SIZE
  split <;> omega

/-- A run of writes keeps the block size, block type and buffering
strategy, and keeps the buffered length strictly below the block
size. -/
theorem Encoder.runWrites_inv {σ TF TD : Type} (C : Ctx σ TF TD) :
    ∀ (bufs : List (List Nat)) (enc : Encoder σ), 1 ≤ enc.block.block_size →
      enc.block.block_buf.len < enc.block.block_size →
      (Encoder.runWrites C enc bufs).block.block_size = enc.block.block_size
      ∧ (Encoder.runWrites C enc bufs).block.block_type = enc.block.block_type
      ∧ (Encoder.runWrites C enc bufs).block.block_buf.tag = enc.block.block_buf.tag
      ∧ (Encoder.runWrites C enc bufs).block.block_buf.len < enc.block.block_size := by
  intro bufs
  induction bufs with
  | nil => intro enc h1 h2; exact ⟨rfl, rfl, rfl, h2⟩
  | cons buf bufs ih =>
    intro enc h1 h2
    have hw := Block.write_spec C enc.block enc.writer buf h1
    have h1b : 1 ≤ (Encoder.write C enc buf).1.block.block_size := by
      show 1 ≤ (Block.write C enc.block enc.writer buf).1.block_size
      rw [hw.2.1]; exact h1
    have h2b : (Encoder.write C enc buf).1.block.block_buf.len <
        (Encoder.write C enc buf).1.block.block_size := by
      show (Block.write C enc.block enc.writer buf).1.block_buf.len <
        (Block.write C enc.block enc.writer buf).1.block_size
      rw [hw.2.1]; exact hw.1
    have hih := ih (Encoder.write C enc buf).1 h1b h2b
    have hsz : (Encoder.write C enc buf).1.block.block_size = enc.block.block_size :=
      hw.2.1
    have hty : (Encoder.write C enc buf).1.block.block_type = enc.block.block_type :=
      hw.2.2.1
    have htg : (Encoder.write C enc buf).1.block.block_buf.tag =
        enc.block.block_buf.tag := hw.2.2.2
    refine ⟨?_, ?_, ?_, ?_⟩
    · exact (hih.1).trans hsz
    · exact (hih.2.1).trans hty
    · exact (hih.2.2.1).trans htg
    · rw [← hsz]; exact hih.2.2.2

/-- Every 2-bit block-type code is 0, 1 or 2 — never the reserved
value 3. -/
theorem BlockType.code_lt_three (t : BlockType) : t.code < 3 := by
  cases t <;> simp [BlockType.code]

/-- Every state reached by the flush loop is reachable from its start
state through non-final block emissions. -/
theorem Block.flushLoop_rtg {σ TF TD : Type} (C : Ctx σ TF TD) :
    ∀ (fuel : Nat) (st : Block σ × BitWriter),
      Relation.ReflTransGen (EncStep C) st (Block.flushLoop C fuel st) := by
  intro fuel
  induction fuel with
  | zero => intro st; exact Relation.ReflTransGen.refl
  | succ n ih =>
    intro st
    rw [Block.flushLoop]
    split
    · next hc =>
      exact Relation.ReflTransGen.head (EncStep.emit st.1 st.2 hc) (ih _)
    · exact Relation.ReflTransGen.refl

/-- The state after `Block::write` is reachable from the state before
it through one append step and non-final block emissions only. -/
theorem Block.write_rtg {σ TF TD : Type} (C : Ctx σ TF TD) (blk : Block σ)
    (w : BitWriter) (buf : List Nat) :
    Relation.ReflTransGen (EncStep C) (blk, w) (Block.write C blk w buf) :=
  Relation.ReflTransGen.head (EncStep.append blk w buf) (Block.flushLoop_rtg C _ _)

/-- The state after a run of `Encoder::write` calls is reachable from
the initial state through append steps and non-final block emissions
only. -/
theorem Encoder.runWrites_rtg {σ TF TD : Type} (C : Ctx σ TF TD) :
    ∀ (bufs : List (List Nat)) (enc : Encoder σ),
      Relation.ReflTransGen (EncStep C) (enc.block, enc.writer)
        ((Encoder.runWrites C enc bufs).block, (Encoder.runWrites C enc bufs).writer) := by
  intro bufs
  induction bufs with
  | nil => intro enc; exact Relation.ReflTransGen.refl
  | cons buf bufs ih =>
    intro enc
    exact Relation.ReflTransGen.trans (Block.write_rtg C enc.block enc.writer buf)
      (ih (Encoder.write C enc buf).1)

/-- `Block::write` keeps the block type, without any side condition. -/
theorem Block.write_block_type {σ TF TD : Type} (C : Ctx σ TF TD) (blk : Block σ)
    (w : BitWriter) (buf : List Nat) :
    (Block.write C blk w buf).1.block_type = blk.block_type :=
  (Block.flushLoop_preserves C ((blk.block_buf.append C buf).len + 1)
    ({ blk with block_buf := blk.block_buf.append C buf }, w)).2.1

/-- A run of writes keeps the block type, without any side condition. -/
theorem Encoder.runWrites_block_type {σ TF TD : Type} (C : Ctx σ TF TD) :
    ∀ (bufs : List (List Nat)) (enc : Encoder σ),
      (Encoder.runWrites C enc bufs).block.block_type = enc.block.block_type := by
  intro bufs
  induction bufs with
  | nil => intro enc; rfl
  | cons buf bufs ih =>
    intro enc
    exact (ih (Encoder.write C enc buf).1).trans
      (Block.write_block_type C enc.block enc.writer buf)

/-!
Claim theorems.
-/

/-- C4: Options resolution is a pure, error-free function: the resolved
block type is Raw exactly when no match-finder is configured, Dynamic
exactly when a match-finder is configured and dynamic_huffman is true,
and Fixed exactly when a match-finder is configured and dynamic_huffman
is false; and the effective block size equals min(block_size, 65535)
when the resolved type is Raw and equals block_size unchanged
otherwise. -/
theorem options_resolution {σ : Type} (o : EncodeOptions σ) :
    (o.get_block_type = BlockType.Raw ↔ o.lz77 = none)
    ∧ (o.get_block_type = BlockType.Dynamic ↔ o.lz77 ≠ none ∧ o.dynamic_huffman = true)
    ∧ (o.get_block_type = BlockType.Fixed ↔ o.lz77 ≠ none ∧ o.dynamic_huffman = false)
    ∧ o.get_block_size =
        (if o.get_block_type = BlockType.Raw then min o.block_size 65535
         else o.block_size) := by
  obtain ⟨bs, dyn, lz⟩ := o
  cases lz <;> cases dyn <;>
    simp [EncodeOptions.get_block_type, EncodeOptions.get_block_size,
      MAX_NON_COMPRESSED_BLOCK_SIZE]

/-- C1: a raw-mode flush of the Block Buffer emits a stored-block body
with size = min(buffered length, 65535): the writer is first
byte-aligned (no pending bits remain), then the little-endian 16-bit
LEN, then the little-endian 16-bit NLEN which is the 16-bit one's
complement of LEN (LEN + NLEN = 65535), then exactly `size` buffered
bytes verbatim; exactly those `size` bytes are removed from the front
of the buffer, leaving the remainder buffered. -/
theorem rawbuf_flush_stored_block (b : RawBuf) (w : BitWriter) :
    RawBuf.flush b w =
      (⟨b.buf.drop (min b.len 65535)⟩,
       ⟨w.flush.bytes
          ++ [min b.len 65535 % 256, min b.len 65535 / 256 % 256]
          ++ [(65535 - min b.len 65535) % 256, (65535 - min b.len 65535) / 256 % 256]
          ++ b.buf.take (min b.len 65535),
        w.flush.bitBuf, w.flush.bitLen⟩)
    ∧ w.flush.bitLen = 0
    ∧ (2 ^ 64 - 1 - min b.len 65535) % 2 ^ 16 = 65535 - min b.len 65535
    ∧ min b.len 65535 + (65535 - min b.len 65535) = 65535
    ∧ b.buf = b.buf.take (min b.len 65535) ++ (RawBuf.flush b w).1.buf
    ∧ (RawBuf.flush b w).1.len = b.len - min b.len 65535 := by
  have hs : min b.len 65535 ≤ 65535 := min_le_right _ _
  have hn : (2 ^ 64 - 1 - min b.len 65535) % 2 ^ 16 = 65535 - min b.len 65535 := by
    have h64 : (2 : Nat) ^ 64 = 18446744073709551616 := by norm_num
    have h16 : (2 : Nat) ^ 16 = 65536 := by norm_num
    omega
  refine ⟨?_, BitWriter.flush_bitLen w, hn, by omega, ?_, ?_⟩
  · simp [RawBuf.flush, RawBuf.len, MAX_NON_COMPRESSED_BLOCK_SIZE,
      BitWriter.writeU16LE, BitWriter.writeAll, hn]
    omega
  · simp [RawBuf.flush, RawBuf.len, MAX_NON_COMPRESSED_BLOCK_SIZE]
  · simp [RawBuf.flush, RawBuf.len, MAX_NON_COMPRESSED_BLOCK_SIZE]

/-- C5 counterexample: a raw Block Buffer holding 65536 bytes still has
nonzero length after a successful flush (the flush removes only 65535
bytes), so the buffered length is not reset to zero by every successful
flush. -/
theorem rawbuf_flush_len_not_reset :
    (RawBuf.flush ⟨List.replicate 65536 0⟩ (BitWriter.new [])).1.len ≠ 0 := by
  simp only [RawBuf.flush, RawBuf.len, List.length_drop, List.length_replicate,
    MAX_NON_COMPRESSED_BLOCK_SIZE]
  omega

/-- C5 (amended): for every Block Buffer, the length measured in
original pre-compression bytes grows by exactly the appended byte count
(hence is monotonically non-decreasing across appends between flushes);
immediately after a successful flush, a fixed or dynamic buffer's
length is reset to zero, and a raw buffer's length drops by
min(length, 65535) — which resets it to zero except when more than
65535 bytes were buffered, in which case exactly 65535 bytes are
removed and the remainder stays buffered. -/
theorem blockbuf_len_monotone_and_flush {σ TF TD : Type} (C : Ctx σ TF TD)
    (bb : BlockBuf σ) (buf : List Nat) (w : BitWriter) (b : RawBuf)
    (c d : CompressBuf σ) :
    (bb.append C buf).len = bb.len + buf.length
    ∧ ((BlockBuf.raw b).flush C w).1.len = b.len - min b.len 65535
    ∧ ((BlockBuf.fixed c).flush C w).1.len = 0
    ∧ ((BlockBuf.dynamic d).flush C w).1.len = 0 := by
  refine ⟨BlockBuf.append_len C bb buf, ?_, ?_, ?_⟩
  · simp [BlockBuf.flush, BlockBuf.len, RawBuf.flush, RawBuf.len,
      MAX_NON_COMPRESSED_BLOCK_SIZE]
  · simp [BlockBuf.flush, BlockBuf.len, CompressBuf.flush, CompressBuf.len]
  · simp [BlockBuf.flush, BlockBuf.len, CompressBuf.flush, CompressBuf.len]

/-- C6 counterexample: with configured block size 0 (raw mode, publicly
reachable through the options builder), even an empty write emits a
stored block — the first loop iteration emits a non-final header bit,
the type code and an empty stored block, changing the output (the
source loop then keeps emitting such blocks without terminating). -/
theorem empty_write_emits_at_block_size_zero :
    (Block.write Ctx0 (Block.new (⟨0, false, none⟩ : EncodeOptions Unit))
        (BitWriter.new []) []).2 ≠ BitWriter.new [] := by
  decide

/-- C6 (amended): for every encoder state whose buffered length is
strictly below the configured block size — which includes every state
reachable through the public interface when the block size is at least
1 — calling write with an empty byte sequence leaves the buffered
length unchanged and emits no block (the writer is unchanged). -/
theorem empty_write_noop {σ TF TD : Type} (C : Ctx σ TF TD) (blk : Block σ)
    (w : BitWriter) (h : blk.block_buf.len < blk.block_size) :
    (Block.write C blk w []).2 = w
    ∧ (Block.write C blk w []).1.block_buf.len = blk.block_buf.len := by
  have hl : (blk.block_buf.append C []).len = blk.block_buf.len := by
    simp [BlockBuf.append_len]
  unfold Block.write
  simp only [Block.flushLoop, hl]
  rw [if_neg (by simpa [hl] using Nat.not_le.mpr h)]
  exact ⟨rfl, hl⟩

/-- C6 witness: the amended no-op property at a concrete fresh raw
encoder with block size 1. -/
theorem empty_write_noop_witness :
    (Block.write Ctx0 (Block.new (⟨1, false, none⟩ : EncodeOptions Unit))
        (BitWriter.new []) []).2 = BitWriter.new []
    ∧ (Block.write Ctx0 (Block.new (⟨1, false, none⟩ : EncodeOptions Unit))
        (BitWriter.new []) []).1.block_buf.len =
      (Block.new (⟨1, false, none⟩ : EncodeOptions Unit)).block_buf.len :=
  empty_write_noop Ctx0 _ _ (by decide)

/-- C10: for every configured block size of at least 1, the flush loop
inside Block::write terminates — a fuel allowance of one more than the
buffered length reaches the loop's exit condition (the buffered length
ends strictly below the block size) and any extra fuel is unused, and
each iteration taken while the loop condition holds strictly decreases
the buffered length (a raw flush removes min(length, 65535) ≥ 1 bytes,
a compressed flush drains to zero), so only finitely many blocks are
emitted per write call. -/
theorem block_write_loop_terminates {σ TF TD : Type} (C : Ctx σ TF TD) (blk : Block σ)
    (w : BitWriter) (fuel : Nat) (hbs : 1 ≤ blk.block_size)
    (hfuel : blk.block_buf.len + 1 ≤ fuel) :
    (Block.flushLoop C fuel (blk, w)).1.block_buf.len <
      (Block.flushLoop C fuel (blk, w)).1.block_size
    ∧ (∀ extra, Block.flushLoop C (fuel + extra) (blk, w) =
        Block.flushLoop C fuel (blk, w))
    ∧ (blk.block_size ≤ blk.block_buf.len →
        (Block.flushStep C blk w).1.block_buf.len < blk.block_buf.len) := by
  have h := Block.flushLoop_spec C fuel blk w hbs hfuel
  have hp := Block.flushLoop_preserves C fuel (blk, w)
  refine ⟨?_, h.2, fun hc => Block.flushStep_len_lt C blk w (le_trans hbs hc)⟩
  rw [hp.1]
  exact h.1

/-- C10 witness: termination and strict decrease at a concrete raw
block of size 1 holding one byte, with fuel 2. -/
theorem block_write_loop_terminates_witness :
    (Block.flushLoop Ctx0 2
        ((⟨BlockType.Raw, 1, BlockBuf.raw ⟨[7]⟩⟩ : Block Unit), BitWriter.new [])).1.block_buf.len <
      (Block.flushLoop Ctx0 2
        ((⟨BlockType.Raw, 1, BlockBuf.raw ⟨[7]⟩⟩ : Block Unit), BitWriter.new [])).1.block_size
    ∧ (Block.flushStep Ctx0 (⟨BlockType.Raw, 1, BlockBuf.raw ⟨[7]⟩⟩ : Block Unit)
        (BitWriter.new [])).1.block_buf.len <
      (⟨BlockType.Raw, 1, BlockBuf.raw ⟨[7]⟩⟩ : Block Unit).block_buf.len :=
  ⟨(block_write_loop_terminates Ctx0 ⟨BlockType.Raw, 1, BlockBuf.raw ⟨[7]⟩⟩
      (BitWriter.new []) 2 (by decide) (by decide)).1,
   (block_write_loop_terminates Ctx0 ⟨BlockType.Raw, 1, BlockBuf.raw ⟨[7]⟩⟩
      (BitWriter.new []) 2 (by decide) (by decide)).2.2 (by decide)⟩

/-- C9: after every run of successful Block::write calls from a fresh
encoder with block size at least 1, the buffered length is strictly
less than the effective block size; in raw mode the effective block
size is clamped to at most 65535, so the buffer holds at most 65535
bytes whenever finish is reached through the public Encoder interface,
and the single buffer flush performed by finish fully drains the buffer
(no written byte is silently dropped). -/
theorem encoder_finish_fully_drains {σ TF TD : Type} (C : Ctx σ TF TD)
    (opts : EncodeOptions σ) (inner : List Nat) (bufs : List (List Nat))
    (h : 1 ≤ opts.block_size) :
    (Encoder.runWrites C (Encoder.with_options inner opts) bufs).block.block_buf.len <
      (Encoder.runWrites C (Encoder.with_options inner opts) bufs).block.block_size
    ∧ (opts.lz77 = none →
        (Encoder.runWrites C (Encoder.with_options inner opts) bufs).block.block_size
          ≤ 65535)
    ∧ ∀ w2, (((Encoder.runWrites C (Encoder.with_options inner opts)
        bufs).block.block_buf.flush C w2).1).len = 0 := by
  have h1 : 1 ≤ (Encoder.with_options inner opts (σ := σ)).block.block_size :=
    EncodeOptions.get_block_size_pos opts h
  have hlen0 : (Encoder.with_options inner opts (σ := σ)).block.block_buf.len = 0 :=
    BlockBuf.new_len opts.lz77 opts.dynamic_huffman
  have h2 : (Encoder.with_options inner opts (σ := σ)).block.block_buf.len <
      (Encoder.with_options inner opts (σ := σ)).block.block_size := by
    rw [hlen0]; exact h1
  have hinv := Encoder.runWrites_inv C bufs (Encoder.with_options inner opts) h1 h2
  have hsize : (Encoder.runWrites C (Encoder.with_options inner opts)
      bufs).block.block_size = opts.get_block_size := hinv.1
  have htag : (Encoder.runWrites C (Encoder.with_options inner opts)
      bufs).block.block_buf.tag = (BlockBuf.new opts.lz77 opts.dynamic_huffman).tag :=
    hinv.2.2.1
  have hraw_small : opts.lz77 = none → opts.get_block_size ≤ 65535 := by
    intro hlz
    unfold EncodeOptions.get_block_size MAX_NON_COMPRESSED_BLOCK_SIZE
    rw [hlz]
    simp
  refine ⟨?_, ?_, ?_⟩
  · rw [hsize]; exact hinv.2.2.2
  · intro hlz; rw [hsize]; exact hraw_small hlz
  · intro w2
    apply BlockBuf.flush_drains
    intro hr
    have hlz : opts.lz77 = none := by
      rw [htag, BlockBuf.new_tag_raw] at hr
      exact hr
    have hlen : (Encoder.runWrites C (Encoder.with_options inner opts)
        bufs).block.block_buf.len < opts.get_block_size := by
      have hfin := hinv.2.2.2
      have hstart : (Encoder.with_options inner opts (σ := σ)).block.block_size =
          opts.get_block_size := rfl
      rw [hstart] at hfin
      exact hfin
    have hbd := hraw_small hlz
    omega

/-- C9 witness: the invariant and the full drain of the finishing flush
at a concrete raw encoder with block size 1 after writing two bytes. -/
theorem encoder_finish_fully_drains_witness :
    (Encoder.runWrites Ctx0
        (Encoder.with_options [] (⟨1, false, none⟩ : EncodeOptions Unit))
        [[5, 6]]).block.block_buf.len <
      (Encoder.runWrites Ctx0
        (Encoder.with_options [] (⟨1, false, none⟩ : EncodeOptions Unit))
        [[5, 6]]).block.block_size
    ∧ (((Encoder.runWrites Ctx0
        (Encoder.with_options [] (⟨1, false, none⟩ : EncodeOptions Unit))
        [[5, 6]]).block.block_buf.flush Ctx0 (BitWriter.new [])).1).len = 0 :=
  ⟨(encoder_finish_fully_drains Ctx0 (⟨1, false, none⟩ : EncodeOptions Unit) []
      [[5, 6]] (by decide)).1,
   (encoder_finish_fully_drains Ctx0 (⟨1, false, none⟩ : EncodeOptions Unit) []
      [[5, 6]] (by decide)).2.2 (BitWriter.new [])⟩

/-- C7: in compressed mode (fixed or dynamic) with block size N ≥ 1,
writing exactly N bytes into a fresh encoder triggers exactly one block
emission before any further write — the write equals a single loop
iteration (one non-final header plus one buffer flush) and the buffer
ends empty — while writing N−1 bytes triggers none: the write only
appends and the writer is untouched. -/
theorem compressed_threshold_boundary {σ TF TD : Type} (C : Ctx σ TF TD) (s0 : σ)
    (dyn : Bool) (N : Nat) (hN : 1 ≤ N) (input input2 : List Nat)
    (h1 : input.length = N) (h2 : input2.length = N - 1) (w : BitWriter) :
    Block.write C (Block.new (⟨N, dyn, some s0⟩ : EncodeOptions σ)) w input =
      Block.flushStep C
        { Block.new (⟨N, dyn, some s0⟩ : EncodeOptions σ) with
            block_buf := (Block.new (⟨N, dyn, some s0⟩ :
              EncodeOptions σ)).block_buf.append C input } w
    ∧ (Block.write C (Block.new (⟨N, dyn, some s0⟩ : EncodeOptions σ)) w
        input).1.block_buf.len = 0
    ∧ Block.write C (Block.new (⟨N, dyn, some s0⟩ : EncodeOptions σ)) w input2 =
      ({ Block.new (⟨N, dyn, some s0⟩ : EncodeOptions σ) with
          block_buf := (Block.new (⟨N, dyn, some s0⟩ :
            EncodeOptions σ)).block_buf.append C input2 }, w) := by
  have hsize : (Block.new (⟨N, dyn, some s0⟩ : EncodeOptions σ)).block_size = N := by
    simp [Block.new, EncodeOptions.get_block_size]
  have hlen0 : (Block.new (⟨N, dyn, some s0⟩ :
      EncodeOptions σ)).block_buf.len = 0 :=
    BlockBuf.new_len (some s0) dyn
  have happ1 : ((Block.new (⟨N, dyn, some s0⟩ :
      EncodeOptions σ)).block_buf.append C input).len = N := by
    rw [BlockBuf.append_len, hlen0, h1]
    omega
  have happ2 : ((Block.new (⟨N, dyn, some s0⟩ :
      EncodeOptions σ)).block_buf.append C input2).len = N - 1 := by
    rw [BlockBuf.append_len, hlen0, h2]
    omega
  have htag : ((Block.new (⟨N, dyn, some s0⟩ :
      EncodeOptions σ)).block_buf.append C input).tag ≠ BlockType.Raw := by
    rw [BlockBuf.append_tag]
    intro hr
    have := (BlockBuf.new_tag_raw (some s0) dyn).mp hr
    simp at this
  have hz : (Block.flushStep C
      { Block.new (⟨N, dyn, some s0⟩ : EncodeOptions σ) with
          block_buf := (Block.new (⟨N, dyn, some s0⟩ :
            EncodeOptions σ)).block_buf.append C input } w).1.block_buf.len = 0 :=
    Block.flushStep_len_zero C _ w htag
  have hone := Block.write_one_step C (Block.new (⟨N, dyn, some s0⟩ :
      EncodeOptions σ)) w input (by rw [hsize]; exact hN)
    (by rw [happ1, hsize]) hz
  refine ⟨hone, ?_, ?_⟩
  · rw [hone]; exact hz
  · exact Block.write_no_step C _ w input2 (by rw [happ2, hsize]; omega)

/-- C7 witness: the threshold boundary at N = 2 in fixed mode — two
bytes trigger exactly one emission and leave the buffer empty. -/
theorem compressed_threshold_boundary_witness :
    (Block.write Ctx0 (Block.new (⟨2, false, some ()⟩ : EncodeOptions Unit))
        (BitWriter.new []) [3, 4]).1.block_buf.len = 0
    ∧ Block.write Ctx0 (Block.new (⟨2, false, some ()⟩ : EncodeOptions Unit))
        (BitWriter.new []) [9] =
      ({ Block.new (⟨2, false, some ()⟩ : EncodeOptions Unit) with
          block_buf := (Block.new (⟨2, false, some ()⟩ :
            EncodeOptions Unit)).block_buf.append Ctx0 [9] }, BitWriter.new []) :=
  ⟨(compressed_threshold_boundary Ctx0 () false 2 (by decide) [3, 4] [9]
      (by decide) (by decide) (BitWriter.new [])).2.1,
   (compressed_threshold_boundary Ctx0 () false 2 (by decide) [3, 4] [9]
      (by decide) (by decide) (BitWriter.new [])).2.2⟩

/-- C2: in every encoder run (any sequence of successful writes
followed by one finish), every block emitted during the writes is a
non-final block (the state evolves only through append steps and
non-final emissions, whose header bit is fixed to 0), the finishing
call emits exactly one final block — a header bit 1, the 2-bit type
code, one buffer flush — as the last block of the stream, followed only
by byte alignment; the block type used throughout the run is the one
resolved at construction and its 2-bit code is 0, 1 or 2 (never 3);
and the output is byte-aligned after the final block (no pending bits
remain). -/
theorem encoder_run_single_final_block {σ TF TD : Type} (C : Ctx σ TF TD)
    (opts : EncodeOptions σ) (inner : List Nat) (bufs : List (List Nat)) :
    Relation.ReflTransGen (EncStep C)
      ((Encoder.with_options inner opts (σ := σ)).block,
        (Encoder.with_options inner opts (σ := σ)).writer)
      ((Encoder.runWrites C (Encoder.with_options inner opts) bufs).block,
        (Encoder.runWrites C (Encoder.with_options inner opts) bufs).writer)
    ∧ (∀ (blk : Block σ) (w : BitWriter),
        Block.finish C blk w =
          ((blk.block_buf.flush C
            ((w.writeBit true).writeBits 2 blk.block_type.code)).2).flush)
    ∧ (Encoder.runWrites C (Encoder.with_options inner opts)
        bufs).block.block_type = (Block.new opts).block_type
    ∧ (Encoder.runWrites C (Encoder.with_options inner opts)
        bufs).block.block_type.code < 3
    ∧ (Block.finish C
        (Encoder.runWrites C (Encoder.with_options inner opts) bufs).block
        (Encoder.runWrites C (Encoder.with_options inner opts) bufs).writer).bitLen = 0
    ∧ Encoder.finish C (Encoder.runWrites C (Encoder.with_options inner opts) bufs) =
        (Block.finish C
          (Encoder.runWrites C (Encoder.with_options inner opts) bufs).block
          (Encoder.runWrites C (Encoder.with_options inner opts) bufs).writer).bytes := by
  refine ⟨Encoder.runWrites_rtg C bufs (Encoder.with_options inner opts),
    fun blk w => rfl, Encoder.runWrites_block_type C bufs _, ?_, ?_, rfl⟩
  · exact BlockType.code_lt_three _
  · show ((((Encoder.runWrites C (Encoder.with_options inner opts)
        bufs).block.block_buf.flush C _).2).flush).bitLen = 0
    exact BitWriter.flush_bitLen _

/-- C3: a compressed-mode (fixed or dynamic) flush first invokes the
match-finder's flush, appending its pending look-ahead symbols to the
accumulator, then appends exactly one EndOfBlock as the last symbol
(exactly one, since the Sink adapter never produces EndOfBlock), builds
a Huffman codec from the accumulated symbol multiset, serializes its
side-table to the bit writer, encodes every accumulated symbol in
original arrival order (a left fold over the accumulated sequence), and
afterwards both the symbol accumulator and the original-byte counter
are empty — a complete drain. -/
theorem compressbuf_flush_complete {σ T : Type} (L : Lz77Encode σ) (H : HuffmanCodec T)
    (c : CompressBuf σ) (w : BitWriter)
    (hbuf : Symbol.endOfBlock ∉ c.buf)
    (htail : Symbol.endOfBlock ∉ (L.flush c.lzState).2) :
    CompressBuf.flush L H c w =
      (⟨[], 0, (L.flush c.lzState).1⟩,
        (c.buf ++ (L.flush c.lzState).2 ++ [Symbol.endOfBlock]).foldl
          (H.encode (H.build (c.buf ++ (L.flush c.lzState).2 ++ [Symbol.endOfBlock])))
          (H.save w (H.build (c.buf ++ (L.flush c.lzState).2 ++ [Symbol.endOfBlock]))))
    ∧ (c.buf ++ (L.flush c.lzState).2 ++ [Symbol.endOfBlock]).getLast? =
        some Symbol.endOfBlock
    ∧ (c.buf ++ (L.flush c.lzState).2 ++ [Symbol.endOfBlock]).count
        Symbol.endOfBlock = 1
    ∧ (CompressBuf.flush L H c w).1.buf = []
    ∧ (CompressBuf.flush L H c w).1.len = 0 := by
  refine ⟨rfl, ?_, ?_, rfl, rfl⟩
  · simp
  · simp [List.count_append, List.count_eq_zero.mpr hbuf, List.count_eq_zero.mpr htail]

/-- C3 witness: the complete-drain flush at a concrete accumulator
holding one literal, with the pass-through match finder and the trivial
codec. -/
theorem compressbuf_flush_complete_witness :
    ((⟨[Symbol.literal 3], 1, ()⟩ : CompressBuf Unit).buf
        ++ (idLz77.flush ()).2 ++ [Symbol.endOfBlock]).count Symbol.endOfBlock = 1
    ∧ (CompressBuf.flush idLz77 unitCodec (⟨[Symbol.literal 3], 1, ()⟩ :
        CompressBuf Unit) (BitWriter.new [])).1.len = 0 :=
  ⟨(compressbuf_flush_complete idLz77 unitCodec ⟨[Symbol.literal 3], 1, ()⟩
      (BitWriter.new []) (by decide) (by decide)).2.2.1,
   (compressbuf_flush_complete idLz77 unitCodec ⟨[Symbol.literal 3], 1, ()⟩
      (BitWriter.new []) (by decide) (by decide)).2.2.2.2⟩

/-- C8: Encoder::finish consumes the encoder and, whether or not the
finishing flush fails with an I/O error, returns ownership of the
underlying sink to the caller together with the optional error — the
returned sink is exactly the inner sink of the writer state left by the
finishing flush, and the returned error is exactly that flush's
outcome, in both the success and the failure branch; and
Encoder::write, on success, returns exactly the length of the input
buffer (never a short write). -/
theorem encoder_finish_returns_sink {σ TF TD : Type} (C : CtxF σ TF TD)
    (enc : EncoderF σ) (buf : List Nat) :
    (EncoderF.finish C enc).obj = (Block.finishF C enc.block enc.writer).1.inner
    ∧ (EncoderF.finish C enc).err = (Block.finishF C enc.block enc.writer).2
    ∧ ∀ n, (EncoderF.write C enc buf).2 = Except.ok n → n = buf.length := by
  refine ⟨?_, ?_, ?_⟩
  · rcases h : Block.finishF C enc.block enc.writer with ⟨w2, e⟩
    cases e <;> simp [EncoderF.finish, h]
  · rcases h : Block.finishF C enc.block enc.writer with ⟨w2, e⟩
    cases e <;> simp [EncoderF.finish, h]
  · intro n
    rcases h : Block.writeF C enc.block enc.writer buf with ⟨blk, w2, e⟩
    cases e <;> simp [EncoderF.write, h]
    intro hn
    omega

/-- C8 witness: at a concrete fallible encoder with enough budget, a
successful write of one byte reports length 1, and finish returns the
sink of the post-finish writer state. -/
theorem encoder_finish_returns_sink_witness :
    (EncoderF.finish CtxF0 (EncoderF.with_options ⟨[], 10⟩
        (⟨5, false, none⟩ : EncodeOptions Unit))).obj =
      (Block.finishF CtxF0
        (EncoderF.with_options ⟨[], 10⟩ (⟨5, false, none⟩ : EncodeOptions Unit)).block
        (EncoderF.with_options ⟨[], 10⟩ (⟨5, false, none⟩ :
          EncodeOptions Unit)).writer).1.inner
    ∧ 1 = ([7] : List Nat).length :=
  ⟨(encoder_finish_returns_sink CtxF0 (EncoderF.with_options ⟨[], 10⟩
      (⟨5, false, none⟩ : EncodeOptions Unit)) [7]).1,
   (encoder_finish_returns_sink CtxF0 (EncoderF.with_options ⟨[], 10⟩
      (⟨5, false, none⟩ : EncodeOptions Unit)) [7]).2.2 1 rfl⟩

end Libflate
